import Mathlib

/-!
# Verification of the promcache HTTP caching reverse proxy

This file gives a shallow embedding of the promcache repository (a TTL
key-value cache, a cache-key generator with time bucketing, and the
cache-aside proxy handler) and proves or refutes the frozen claims about it.

Modelling conventions:
* Go `url.Values` and `http.Header` (both `map[string][]string`) are modelled
  as association lists `List (String × List String)`; a Go map has no
  duplicate keys, which appears as `Nodup` hypotheses where needed.
* Go `sort.Strings` sorts byte-lexicographically; on UTF-8 data this agrees
  with codepoint-lexicographic order, modelled by `lexLe` on `List Char`.
* Machine integers (`int64`) are modelled as `Int`; Go integer division
  truncates toward zero, which is `Int.tdiv`.
* `strconv.ParseFloat` is modelled on plain decimal numerals
  (optional sign, digits, optional fraction); the parsed value is kept
  exactly as a pair `(n, k)` denoting `n / 10^k`. Exponent, hex and
  inf/nan forms are outside the model. `int64(f)` conversion (truncation
  toward zero) is `int64OfParsed`.
* Times (`time.Now().UnixNano()`) are passed explicitly as an `Int`
  parameter `now`.
-/

namespace Promcache

/-! ## Byte-lexicographic string order (models Go `sort.Strings`) -/

/-- Lexicographic less-or-equal on character lists, comparing codepoints. -/
def lexLe : List Char → List Char → Bool
  | [], _ => true
  | _ :: _, [] => false
  | a :: as, b :: bs =>
    if a.toNat < b.toNat then true
    else if b.toNat < a.toNat then false
    else lexLe as bs

/-- Lexicographic less-or-equal on strings. -/
def strLe (a b : String) : Bool := lexLe a.toList b.toList

theorem lexLe_total : ∀ as bs : List Char, lexLe as bs = true ∨ lexLe bs as = true := by
  intro as
  induction as with
  | nil => intro bs; left; simp [lexLe]
  | cons a as ih =>
    intro bs
    cases bs with
    | nil => right; simp [lexLe]
    | cons b bs =>
      simp only [lexLe]
      rcases Nat.lt_trichotomy a.toNat b.toNat with h | h | h
      · left; simp [h]
      · have h1 : ¬ a.toNat < b.toNat := by omega
        have h2 : ¬ b.toNat < a.toNat := by omega
        simpa [h1, h2] using ih bs
      · right; simp [h]

theorem lexLe_trans : ∀ as bs cs : List Char,
    lexLe as bs = true → lexLe bs cs = true → lexLe as cs = true := by
  intro as
  induction as with
  | nil => intro bs cs _ _; simp [lexLe]
  | cons a as ih =>
    intro bs cs h1 h2
    cases bs with
    | nil => simp [lexLe] at h1
    | cons b bs =>
      cases cs with
      | nil => simp [lexLe] at h2
      | cons c cs =>
        simp only [lexLe] at h1 h2 ⊢
        rcases Nat.lt_trichotomy a.toNat b.toNat with hab | hab | hab
        · rcases Nat.lt_trichotomy b.toNat c.toNat with hbc | hbc | hbc
          · simp [show a.toNat < c.toNat by omega]
          · simp [show a.toNat < c.toNat by omega]
          · simp only [if_neg (show ¬ b.toNat < c.toNat by omega), if_pos hbc] at h2
            simp at h2
        · rcases Nat.lt_trichotomy b.toNat c.toNat with hbc | hbc | hbc
          · simp [show a.toNat < c.toNat by omega]
          · simp only [if_neg (show ¬ a.toNat < b.toNat by omega),
              if_neg (show ¬ b.toNat < a.toNat by omega)] at h1
            simp only [if_neg (show ¬ b.toNat < c.toNat by omega),
              if_neg (show ¬ c.toNat < b.toNat by omega)] at h2
            simp only [if_neg (show ¬ a.toNat < c.toNat by omega),
              if_neg (show ¬ c.toNat < a.toNat by omega)]
            exact ih bs cs h1 h2
          · simp only [if_neg (show ¬ b.toNat < c.toNat by omega), if_pos hbc] at h2
            simp at h2
        · simp only [if_neg (show ¬ a.toNat < b.toNat by omega), if_pos hab] at h1
          simp at h1

theorem char_toNat_injective {a b : Char} (h : a.toNat = b.toNat) : a = b := by
  have := congrArg Char.ofNat h
  rwa [Char.ofNat_toNat, Char.ofNat_toNat] at this

theorem lexLe_antisymm : ∀ as bs : List Char,
    lexLe as bs = true → lexLe bs as = true → as = bs := by
  intro as
  induction as with
  | nil =>
    intro bs _ h2
    cases bs with
    | nil => rfl
    | cons b bs => simp [lexLe] at h2
  | cons a as ih =>
    intro bs h1 h2
    cases bs with
    | nil => simp [lexLe] at h1
    | cons b bs =>
      simp only [lexLe] at h1 h2
      rcases Nat.lt_trichotomy a.toNat b.toNat with hab | hab | hab
      · simp only [if_neg (show ¬ b.toNat < a.toNat by omega), if_pos hab] at h2
        simp at h2
      · simp only [if_neg (show ¬ a.toNat < b.toNat by omega),
          if_neg (show ¬ b.toNat < a.toNat by omega)] at h1 h2
        rw [char_toNat_injective hab, ih bs h1 h2]
      · simp only [if_neg (show ¬ a.toNat < b.toNat by omega), if_pos hab] at h1
        simp at h1

/-- The sorting relation used for `sortStrings`. -/
def strLeR (a b : String) : Prop := strLe a b = true

instance : DecidableRel strLeR := fun a b => Bool.decEq (strLe a b) true

instance : IsTotal String strLeR :=
  ⟨fun a b => lexLe_total a.toList b.toList⟩

instance : IsTrans String strLeR :=
  ⟨fun a b c => lexLe_trans a.toList b.toList c.toList⟩

theorem string_toList_injective {a b : String} (h : a.toList = b.toList) : a = b :=
  String.ext h

instance : IsAntisymm String strLeR :=
  ⟨fun a b h1 h2 => string_toList_injective (lexLe_antisymm a.toList b.toList h1 h2)⟩

/-- Models Go `sort.Strings`: ascending lexicographic sort. -/
def sortStrings (l : List String) : List String := List.insertionSort strLeR l

theorem sortStrings_perm (l : List String) : (sortStrings l).Perm l :=
  List.perm_insertionSort strLeR l

theorem sortStrings_sorted (l : List String) : List.Sorted strLeR (sortStrings l) :=
  List.sorted_insertionSort strLeR l

/-- Sorting is canonical: permuted inputs sort to the identical list. -/
theorem sortStrings_eq_of_perm {l₁ l₂ : List String} (h : l₁.Perm l₂) :
    sortStrings l₁ = sortStrings l₂ :=
  List.eq_of_perm_of_sorted
    (((sortStrings_perm l₁).trans h).trans (sortStrings_perm l₂).symm)
    (sortStrings_sorted l₁) (sortStrings_sorted l₂)

theorem sortStrings_nodup {l : List String} (h : l.Nodup) : (sortStrings l).Nodup :=
  ((sortStrings_perm l).nodup_iff).mpr h

theorem mem_sortStrings {a : String} {l : List String} : a ∈ sortStrings l ↔ a ∈ l :=
  (sortStrings_perm l).mem_iff

/-! ## Query parameters (models Go `url.Values = map[string][]string`) -/

/-- Query parameters as an association list; models `url.Values`.
A Go map has no duplicate keys, which appears as `Nodup` hypotheses. -/
abbrev Values := List (String × List String)

/-- Replacing map assignment `m[key] = val` on an association list. -/
def assocSet {β : Type} (items : List (String × β)) (key : String) (val : β) :
    List (String × β) :=
  if items.any (fun p => p.1 == key) then
    items.map (fun p => if p.1 == key then (key, val) else p)
  else items ++ [(key, val)]

namespace Values

/-- Map indexing `query[k]`: the value list for `k`, `[]` when absent. -/
def lookupList (q : Values) (key : String) : List String :=
  match q.find? (fun p => p.1 == key) with
  | some p => p.2
  | none => []

/-- Models `url.Values.Get`: the first value for the key, `""` when there is none. -/
def getFirst (q : Values) (key : String) : String :=
  match lookupList q key with
  | [] => ""
  | v :: _ => v

/-- Models `url.Values.Set`: replaces the whole value list with one value. -/
def setVal (q : Values) (key val : String) : Values :=
  assocSet q key [val]

end Values

/-! ## Numeric parsing (models `strconv.ParseFloat` on plain decimal numerals) -/

/-- Decimal digits to a natural number (the accumulating loop of a parser). -/
def digitsToNat (l : List Char) : Nat :=
  l.foldl (fun acc c => acc * 10 + (c.toNat - 48)) 0

/-- Unsigned decimal numeral `digits [. digits]` with at least one digit;
the result `(n, k)` denotes the exact value `n / 10^k`. -/
def parseUnsignedDecimal (l : List Char) : Option (Int × Nat) :=
  let ip := l.takeWhile Char.isDigit
  let rest := l.dropWhile Char.isDigit
  match rest with
  | [] => if ip.isEmpty then none else some ((digitsToNat ip : Int), 0)
  | '.' :: fp =>
    if fp.all Char.isDigit && !(ip.isEmpty && fp.isEmpty) then
      some ((digitsToNat ip * 10 ^ fp.length + digitsToNat fp : Int), fp.length)
    else none
  | _ => none

/-- Models `strconv.ParseFloat` restricted to plain decimal numerals
(optional sign, digits, optional fractional part). Exponent, hex and
inf/nan spellings are outside the model; the value is kept exact. -/
def parseGoNumber (s : String) : Option (Int × Nat) :=
  match s.toList with
  | '+' :: rest => parseUnsignedDecimal rest
  | '-' :: rest => (parseUnsignedDecimal rest).map (fun p => (-p.1, p.2))
  | l => parseUnsignedDecimal l

/-- Go `int64(f)` conversion: truncation toward zero of the exact value
`n / 10^k`. -/
def int64OfParsed (p : Int × Nat) : Int := Int.tdiv p.1 (10 ^ p.2)

/-! ## Cache key generation (models `proxy.go`) -/

/-- Models `roundTimeParameter`: when the first value of `paramName` is a
nonempty string that parses as a number, replace the value list of
`paramName` with the single value obtained by truncating to `int64` and
rounding down (or up, for `roundUp = true`) to a multiple of `ttlSeconds`,
using Go integer division (truncation toward zero, `Int.tdiv`). -/
def roundTimeParameter (query : Values) (paramName : String) (ttlSeconds : Int)
    (roundUp : Bool) : Values :=
  let paramStr := query.getFirst paramName
  if paramStr = "" then query
  else
    match parseGoNumber paramStr with
    | none => query
    | some p =>
      let paramTime := int64OfParsed p
      let roundedTime : Int :=
        if roundUp then (Int.tdiv (paramTime + ttlSeconds - 1) ttlSeconds) * ttlSeconds
        else (Int.tdiv paramTime ttlSeconds) * ttlSeconds
      query.setVal paramName (toString roundedTime)

/-- Models `normalizeQueryString`: sorted parameter names, each name with its
sorted value list, serialized as `name=value` pairs; the Go builder writes a
`&` before every pair except the one at key index 0, value index 0. -/
def normalizeQueryString (query : Values) : String :=
  if query.length = 0 then ""
  else
    let keys := sortStrings (query.map Prod.fst)
    String.join <|
      keys.enum.flatMap fun ik =>
        (sortStrings (Values.lookupList query ik.2)).enum.map fun jv =>
          (if 0 < ik.1 ∨ 0 < jv.1 then "&" else "") ++ ik.2 ++ "=" ++ jv.2

/-- The time-bucketing pass of `generateCacheKey`: round `time` and `start`
down and `end` up when the TTL is positive. -/
def bucketizeQuery (query : Values) (ttlSeconds : Int) : Values :=
  if 0 < ttlSeconds then
    roundTimeParameter
      (roundTimeParameter
        (roundTimeParameter query "time" ttlSeconds false)
        "start" ttlSeconds false)
      "end" ttlSeconds true
  else query

/-- Models `generateCacheKey`: `method + ":" + path + ":" + normalized query`.
`ttlSeconds` stands for `int64(p.cacheTTL.Seconds())`. The Go code operates
on a private copy of the inbound query, so the function is pure here. -/
def generateCacheKey (method path : String) (query : Values) (ttlSeconds : Int) :
    String :=
  method ++ ":" ++ path ++ ":" ++ normalizeQueryString (bucketizeQuery query ttlSeconds)

/-! ## TTL cache (models `cache.go`)

All times are `UnixNano` instants passed explicitly as `now : Int`; `ttl`
is a `time.Duration` in nanoseconds. The store is generic in the value
type (the Go cache stores `[]byte`). -/

/-- Models `cache.Item`: a value with an absolute expiration instant. -/
structure Item (α : Type) where
  value : α
  expiration : Int
deriving DecidableEq

/-- Models `cache.Cache`: the item map plus the configured TTL. -/
structure Cache (α : Type) where
  items : List (String × Item α)
  ttl : Int
deriving DecidableEq

namespace Cache

variable {α : Type}

/-- Map lookup `item, found := c.items[key]`. -/
def findItem (c : Cache α) (key : String) : Option (Item α) :=
  match c.items.find? (fun p => p.1 == key) with
  | some p => some p.2
  | none => none

/-- Models `Cache.Get`, state-passing: returns the value when a non-expired
entry exists (`now > expiration` means expired), and the cache state after
the call. The Go body only reads the map under `RLock`. -/
def getS (c : Cache α) (now : Int) (key : String) : Option α × Cache α :=
  match c.findItem key with
  | none => (none, c)
  | some item =>
    if now > item.expiration then (none, c) else (some item.value, c)

/-- Models `Cache.Set`: stores the value with expiration `now + ttl`,
overwriting any existing entry. -/
def set (c : Cache α) (now : Int) (key : String) (value : α) : Cache α :=
  { c with items := assocSet c.items key ⟨value, now + c.ttl⟩ }

/-- Models `Cache.Delete`. -/
def delete (c : Cache α) (key : String) : Cache α :=
  { c with items := c.items.filter (fun p => !(p.1 == key)) }

/-- Models one tick of `Cache.cleanup`: removes every entry with
`now > expiration`. -/
def cleanup (c : Cache α) (now : Int) : Cache α :=
  { c with items := c.items.filter (fun p => !(now > p.2.expiration : Bool)) }

/-- Models `Cache.Keys`. -/
def keys (c : Cache α) : List String := c.items.map Prod.fst

end Cache

/-! ## Proxy handler (models `proxy.go`) -/

/-- Response headers; models `http.Header = map[string][]string`. Go
canonicalizes MIME header names on `Add`/`Set`; header names appearing in
the model are taken to be canonical already. -/
abbrev Headers := List (String × List String)

/-- Models `http.Header.Add`: appends one value to the list for the name. -/
def headerAdd (h : Headers) (name value : String) : Headers :=
  match h.find? (fun p => p.1 == name) with
  | some _ => h.map (fun p => if p.1 == name then (p.1, p.2 ++ [value]) else p)
  | none => h ++ [(name, [value])]

/-- Models `http.Header.Set`: replaces the value list with one value. -/
def headerSet (h : Headers) (name value : String) : Headers :=
  assocSet h name [value]

/-- The nested copy loop `for name, values := range src { for _, v := range
values { dst.Add(name, v) } }` applied to an empty destination. -/
def addAllHeaders (w : Headers) (src : Headers) : Headers :=
  src.foldl (fun acc p => p.2.foldl (fun acc2 v => headerAdd acc2 p.1 v) acc) w

/-- Models the `Response` struct stored in the cache (`headers`,
`status_code`, `body`); bodies are abstract byte lists. -/
structure Response where
  headers : Headers
  statusCode : Nat
  body : List Nat
deriving DecidableEq

/-- A stored cache payload: `json.Marshal` of a `Response` always succeeds
and round-trips, so a stored entry is either a well-formed encoding of a
`Response` or a corrupt byte string that `json.Unmarshal` rejects. -/
inductive CachedData where
  | valid (resp : Response)
  | corrupt
deriving DecidableEq

/-- What the handler writes to the `http.ResponseWriter`. -/
structure ClientResponse where
  headers : Headers
  statusCode : Nat
  body : List Nat
deriving DecidableEq

/-- Bytes of an ASCII message body (for `http.Error` texts). -/
def textBytes (s : String) : List Nat := s.toList.map Char.toNat

/-- Models `http.Error`: plain-text headers, the given status code, and the
message followed by a newline. -/
def httpError (message : String) (code : Nat) : ClientResponse :=
  { headers := headerSet
      (headerSet [] "Content-Type" "text/plain; charset=utf-8")
      "X-Content-Type-Options" "nosniff"
    statusCode := code
    body := textBytes (message ++ "\n") }

/-- Headers never copied into the stored response (`skipCacheHeaders`). -/
def skipCacheHeaders : List String :=
  ["Date", "Connection", "Transfer-Encoding", "Keep-Alive"]

/-- ASCII lower-casing of one character. -/
def lowerChar (c : Char) : Char :=
  if 65 ≤ c.toNat ∧ c.toNat ≤ 90 then Char.ofNat (c.toNat + 32) else c

/-- Models `strings.EqualFold` on header names (ASCII case folding; the
denylist names are ASCII). -/
def eqFold (a b : String) : Bool :=
  a.toList.map lowerChar == b.toList.map lowerChar

/-- The denylist test of `cacheResponse` for one header name. -/
def isSkippedHeader (name : String) : Bool :=
  skipCacheHeaders.any (fun s => eqFold name s)

/-- Models `cacheResponse`: copy the upstream headers except the denylist
(case-insensitively), and store `{headers, statusCode, body}` serialized
under the key with expiration `now + ttl`. -/
def cacheResponse (c : Cache CachedData) (now : Int) (cacheKey : String)
    (respHeaders : Headers) (status : Nat) (body : List Nat) : Cache CachedData :=
  let storedHeaders := respHeaders.filter (fun p => !(isSkippedHeader p.1))
  c.set now cacheKey (CachedData.valid ⟨storedHeaders, status, body⟩)

/-- Models `writeResponse`: copy all upstream headers to the writer, set
`X-Cache: MISS`, then write status code and body. -/
def writeResponse (respHeaders : Headers) (status : Nat) (body : List Nat) :
    ClientResponse :=
  { headers := headerSet (addAllHeaders [] respHeaders) "X-Cache" "MISS"
    statusCode := status
    body := body }

/-- Models `tryServeCachedResponse`: `none` when the cache misses or the
stored entry fails to unmarshal (both return `false` in Go, without
touching the cache); otherwise the served response with `X-Cache: HIT`. -/
def tryServeCachedResponse (c : Cache CachedData) (now : Int) (cacheKey : String) :
    Option ClientResponse :=
  match (c.getS now cacheKey).1 with
  | none => none
  | some .corrupt => none
  | some (.valid cachedResp) =>
    some { headers := headerSet (addAllHeaders [] cachedResp.headers) "X-Cache" "HIT"
           statusCode := cachedResp.statusCode
           body := cachedResp.body }

/-- Outcome of the upstream dispatch, the oracle for one request:
`prepareError` models a failure building the upstream request,
`transportError` a connect/transport failure of `client.Do`, and
`response` a received response whose body read may fail (`bodyResult = none`). -/
inductive UpstreamResult where
  | prepareError
  | transportError
  | response (statusCode : Nat) (headers : Headers) (bodyResult : Option (List Nat))
deriving DecidableEq

/-- Models `forwardRequest` from the point where the upstream request is
prepared: error paths answer 500/502 without touching the cache; a read
response is stored iff the request was cacheable and the status is 200,
and is then relayed with `X-Cache: MISS`. -/
def forwardRequest (c : Cache CachedData) (now : Int) (cacheKey : String)
    (isCacheable : Bool) (upstream : UpstreamResult) :
    ClientResponse × Cache CachedData :=
  match upstream with
  | .prepareError => (httpError "Internal server error" 500, c)
  | .transportError => (httpError "Failed to reach upstream server" 502, c)
  | .response status headers bodyResult =>
    match bodyResult with
    | none => (httpError "Failed to read upstream response" 500, c)
    | some respBody =>
      let c2 := if isCacheable && status == 200
        then cacheResponse c now cacheKey headers status respBody
        else c
      (writeResponse headers status respBody, c2)

/-- The inbound request as far as caching is concerned. -/
structure Request where
  method : String
  path : String
  query : Values
deriving DecidableEq

/-- Models `HandleRequest`: classify (`GET` is cacheable), compute the key,
serve from cache when possible, otherwise forward. `ttlSeconds` stands for
`int64(p.cacheTTL.Seconds())` and `now` for the wall-clock instant. -/
def HandleRequest (c : Cache CachedData) (now : Int) (ttlSeconds : Int)
    (r : Request) (upstream : UpstreamResult) :
    ClientResponse × Cache CachedData :=
  let isCacheable := r.method == "GET"
  let cacheKey := generateCacheKey r.method r.path r.query ttlSeconds
  match (if isCacheable then tryServeCachedResponse c now cacheKey else none) with
  | some resp => (resp, c)
  | none => forwardRequest c now cacheKey isCacheable upstream

/-! ## Association-list lemmas -/

theorem find?_filter_of_pred {γ : Type} {l : List γ} {p q : γ → Bool} {x : γ}
    (hf : l.find? p = some x) (hq : q x = true) :
    (l.filter q).find? p = some x := by
  induction l with
  | nil => simp at hf
  | cons h t ih =>
    by_cases hp : p h
    · rw [List.find?_cons_of_pos _ hp] at hf
      injection hf with hx
      subst hx
      rw [List.filter_cons_of_pos hq, List.find?_cons_of_pos _ hp]
    · rw [List.find?_cons_of_neg _ hp] at hf
      by_cases hqh : q h
      · rw [List.filter_cons_of_pos hqh, List.find?_cons_of_neg _ hp]
        exact ih hf
      · rw [List.filter_cons_of_neg (by simpa using hqh)]
        exact ih hf

theorem assocSet_find_self {β : Type} (items : List (String × β)) (key : String)
    (val : β) :
    (assocSet items key val).find? (fun p => p.1 == key) = some (key, val) := by
  unfold assocSet
  by_cases h : items.any (fun p => p.1 == key)
  · rw [if_pos h]
    induction items with
    | nil => simp at h
    | cons hd t ih =>
      by_cases hhd : hd.1 == key
      · simp only [List.map_cons, if_pos hhd]
        rw [List.find?_cons_of_pos _ (by simp)]
      · simp only [List.any_cons, hhd, Bool.false_or] at h
        simp only [List.map_cons, if_neg hhd]
        rw [List.find?_cons_of_neg _ (by simpa using hhd)]
        exact ih h
  · rw [if_neg h]
    have hnone : items.find? (fun p => p.1 == key) = none := by
      rw [List.find?_eq_none]
      intro x hx
      simp only [List.any_eq_true, not_exists, not_and] at h
      simpa using h x hx
    rw [List.find?_append, hnone]
    simp

theorem assocSet_find_other {β : Type} (items : List (String × β)) (key : String)
    (val : β) {k : String} (hk : k ≠ key) :
    (assocSet items key val).find? (fun p => p.1 == k)
      = items.find? (fun p => p.1 == k) := by
  unfold assocSet
  by_cases h : items.any (fun p => p.1 == key)
  · rw [if_pos h]
    clear h
    induction items with
    | nil => simp
    | cons hd t ih =>
      by_cases hhd : hd.1 == key
      · have hd1 : hd.1 = key := by simpa using hhd
        simp only [List.map_cons, if_pos hhd]
        rw [List.find?_cons_of_neg _ (by simp [Ne.symm hk]),
          List.find?_cons_of_neg _ (by simp [hd1, Ne.symm hk])]
        exact ih
      · simp only [List.map_cons, if_neg hhd]
        by_cases hmatch : (hd.1 == k) = true
        · simp only [List.find?, hmatch]
        · simp only [List.find?, Bool.not_eq_true] at hmatch ⊢
          simp only [hmatch]
          exact ih
  · rw [if_neg h, List.find?_append]
    cases hf : items.find? (fun p => p.1 == k) with
    | some x => simp
    | none => simp [Ne.symm hk]

/-! ## Cache lemmas -/

theorem Cache.findItem_set_self {α : Type} (c : Cache α) (now : Int) (key : String)
    (value : α) :
    (c.set now key value).findItem key = some ⟨value, now + c.ttl⟩ := by
  unfold Cache.findItem Cache.set
  rw [assocSet_find_self]

theorem Cache.findItem_set_other {α : Type} (c : Cache α) (now : Int) (key : String)
    (value : α) {k : String} (hk : k ≠ key) :
    (c.set now key value).findItem k = c.findItem k := by
  unfold Cache.findItem Cache.set
  rw [assocSet_find_other _ _ _ hk]

/-! ## Claims about the TTL cache (C3, C10) -/

/-- C3: `Get` returns the stored value with `found = true` exactly when a
non-expired entry exists for the key; it reports not-found when the key is
absent and when the entry is expired; and a `Get` never changes the cache
state. -/
theorem claim_C3 {α : Type} (c : Cache α) (now : Int) (key : String) :
    (c.getS now key).2 = c ∧
    (∀ v : α, (c.getS now key).1 = some v ↔
      ∃ item, c.findItem key = some item ∧ ¬ now > item.expiration ∧
        v = item.value) ∧
    (c.findItem key = none → (c.getS now key).1 = none) ∧
    (∀ item, c.findItem key = some item → now > item.expiration →
      (c.getS now key).1 = none) := by
  cases hf : c.findItem key with
  | none => simp [Cache.getS, hf]
  | some item =>
    by_cases he : now > item.expiration
    · simp [Cache.getS, hf, he]
    · simp only [Cache.getS, hf, if_neg he]
      refine ⟨by trivial, ?_, ?_, ?_⟩
      · intro v
        constructor
        · intro hv
          exact ⟨item, rfl, he, by injection hv with h; exact h.symm⟩
        · rintro ⟨item2, hi2, _, hv⟩
          injection hi2 with h
          rw [hv, h]
      · intro h; cases h
      · intro item2 hi2 he2
        injection hi2 with h
        rw [← h] at he2
        exact absurd he2 he

/-- Witness for C3 at a concrete cache: a present, non-expired entry is
returned. -/
theorem claim_C3_witness :
    ((⟨[("k", ⟨(5 : Nat), 100⟩)], 50⟩ : Cache Nat).getS 100 "k").1 = some 5 :=
  ((claim_C3 ⟨[("k", ⟨(5 : Nat), 100⟩)], 50⟩ 100 "k").2.1 5).mpr
    ⟨⟨5, 100⟩, by decide, by decide, rfl⟩

/-- C10: an entry whose expiration equals the current instant is still
live: `Get` returns it and the sweep keeps it, because both use a strict
`now > expiration` comparison. -/
theorem claim_C10 {α : Type} (c : Cache α) (now : Int) (key : String)
    (item : Item α) (hfind : c.findItem key = some item)
    (hexp : item.expiration = now) :
    (c.getS now key).1 = some item.value ∧
    (c.cleanup now).findItem key = some item := by
  constructor
  · simp [Cache.getS, hfind, hexp]
  · unfold Cache.findItem at hfind ⊢
    unfold Cache.cleanup
    cases hf : c.items.find? (fun p => p.1 == key) with
    | none => rw [hf] at hfind; cases hfind
    | some pr =>
      rw [hf] at hfind
      injection hfind with h1
      have hkeep : (!(decide (now > pr.2.expiration))) = true := by
        simp [h1, hexp]
      rw [find?_filter_of_pred hf hkeep]
      simp [h1]

/-- Witness for C10 at a concrete cache with `expiration = now = 100`. -/
theorem claim_C10_witness :
    ((⟨[("k", ⟨(7 : Nat), 100⟩)], 50⟩ : Cache Nat).getS 100 "k").1 = some 7 ∧
    ((⟨[("k", ⟨(7 : Nat), 100⟩)], 50⟩ : Cache Nat).cleanup 100).findItem "k"
      = some ⟨7, 100⟩ :=
  claim_C10 ⟨[("k", ⟨(7 : Nat), 100⟩)], 50⟩ 100 "k" ⟨7, 100⟩ (by decide) rfl

/-! ## Claims about the handler flow (C2, C7, C8) -/

/-- The upstream HTTP status, when a response was received at all. -/
def upstreamStatus : UpstreamResult → Option Nat
  | .response s _ _ => some s
  | _ => none

theorem forwardRequest_cache_unchanged (c : Cache CachedData) (now : Int)
    (ck : String) (isC : Bool) (up : UpstreamResult)
    (h : isC = false ∨ upstreamStatus up ≠ some 200) :
    (forwardRequest c now ck isC up).2 = c := by
  cases up with
  | prepareError => rfl
  | transportError => rfl
  | response s hd b =>
    cases b with
    | none => rfl
    | some body =>
      have hcond : (isC && s == 200) = false := by
        rcases h with h | h
        · simp [h]
        · have hs : s ≠ 200 := by
            intro e
            exact h (by simp [upstreamStatus, e])
          simp [hs]
      simp [forwardRequest, hcond]

/-- C2: a cache entry is created only by a GET request answered upstream
with status 200; for any other method or status the cache is left
unchanged, so a key absent before the request is still absent after it. -/
theorem claim_C2 (c : Cache CachedData) (now ttlSeconds : Int) (r : Request)
    (up : UpstreamResult)
    (h : r.method ≠ "GET" ∨ upstreamStatus up ≠ some 200) :
    (HandleRequest c now ttlSeconds r up).2 = c ∧
    (c.findItem (generateCacheKey r.method r.path r.query ttlSeconds) = none →
      (HandleRequest c now ttlSeconds r up).2.findItem
        (generateCacheKey r.method r.path r.query ttlSeconds) = none) := by
  have hmain : (HandleRequest c now ttlSeconds r up).2 = c := by
    simp only [HandleRequest]
    cases hserve : (if (r.method == "GET") = true
        then tryServeCachedResponse c now
          (generateCacheKey r.method r.path r.query ttlSeconds)
        else none) with
    | some resp => rfl
    | none =>
      apply forwardRequest_cache_unchanged
      rcases h with h | h
      · left; simp [h]
      · right; exact h
  exact ⟨hmain, fun habs => by rw [hmain]; exact habs⟩

/-- Witness for C2: a POST request with an upstream 200 stores nothing. -/
theorem claim_C2_witness :
    (HandleRequest ⟨[], 300⟩ 0 300 ⟨"POST", "/p", []⟩
      (.response 200 [] (some [1, 2]))).2 = (⟨[], 300⟩ : Cache CachedData) :=
  (claim_C2 ⟨[], 300⟩ 0 300 ⟨"POST", "/p", []⟩ (.response 200 [] (some [1, 2]))
    (Or.inl (by decide))).1

/-- C7: a transport failure of the upstream call answers 502 Bad Gateway
and leaves the cache exactly as it was. -/
theorem claim_C7 (c : Cache CachedData) (now ttlSeconds : Int) (r : Request)
    (hmiss : r.method = "GET" → tryServeCachedResponse c now
      (generateCacheKey r.method r.path r.query ttlSeconds) = none) :
    HandleRequest c now ttlSeconds r .transportError
      = (httpError "Failed to reach upstream server" 502, c) := by
  simp only [HandleRequest]
  by_cases hm : (r.method == "GET") = true
  · rw [if_pos hm, hmiss (by simpa using hm)]
    rfl
  · rw [if_neg hm]
    rfl

/-- Witness for C7: on an empty cache, a GET hit by a transport error gets
502 and the cache stays empty. -/
theorem claim_C7_witness :
    HandleRequest ⟨[], 300⟩ 0 300 ⟨"GET", "/p", []⟩ .transportError
      = (httpError "Failed to reach upstream server" 502, (⟨[], 300⟩ : Cache CachedData)) :=
  claim_C7 ⟨[], 300⟩ 0 300 ⟨"GET", "/p", []⟩ (fun _ => by decide)

/-- C8: a live but corrupt cache entry is treated as a miss (the handler
falls through to the upstream path) and is not deleted by that handling:
afterwards the key still holds either the corrupt entry or a freshly
stored valid response. -/
theorem claim_C8 (c : Cache CachedData) (now ttlSeconds : Int) (r : Request)
    (up : UpstreamResult) (item : Item CachedData)
    (hm : r.method = "GET")
    (hfind : c.findItem (generateCacheKey r.method r.path r.query ttlSeconds)
      = some item)
    (hcorrupt : item.value = CachedData.corrupt)
    (hlive : ¬ now > item.expiration) :
    HandleRequest c now ttlSeconds r up
      = forwardRequest c now (generateCacheKey r.method r.path r.query ttlSeconds)
          true up ∧
    ∃ it2, (HandleRequest c now ttlSeconds r up).2.findItem
        (generateCacheKey r.method r.path r.query ttlSeconds) = some it2 ∧
      (it2 = item ∨ ∃ resp : Response, it2.value = CachedData.valid resp) := by
  have htry : tryServeCachedResponse c now
      (generateCacheKey r.method r.path r.query ttlSeconds) = none := by
    unfold tryServeCachedResponse Cache.getS
    simp [hfind, hlive, hcorrupt]
  have hm2 : (r.method == "GET") = true := by simp [hm]
  have hfwd : HandleRequest c now ttlSeconds r up
      = forwardRequest c now (generateCacheKey r.method r.path r.query ttlSeconds)
          true up := by
    simp only [HandleRequest, hm2, if_pos, htry]
  refine ⟨hfwd, ?_⟩
  rw [hfwd]
  cases up with
  | prepareError => exact ⟨item, hfind, Or.inl rfl⟩
  | transportError => exact ⟨item, hfind, Or.inl rfl⟩
  | response s hd b =>
    cases b with
    | none => exact ⟨item, hfind, Or.inl rfl⟩
    | some body =>
      by_cases hs : (s == 200) = true
      · refine ⟨⟨CachedData.valid ⟨hd.filter (fun p => !(isSkippedHeader p.1)), s, body⟩,
          now + c.ttl⟩, ?_, Or.inr ⟨_, rfl⟩⟩
        simp only [forwardRequest, hs, Bool.true_and, if_pos]
        exact Cache.findItem_set_self c now _ _
      · refine ⟨item, ?_, Or.inl rfl⟩
        have : (true && s == 200) = false := by simp [hs]
        simp only [forwardRequest, this]
        exact hfind

/-- Witness for C8: a concrete corrupt entry under the computed key is
served as a miss; with an upstream 503 the corrupt entry stays in place. -/
theorem claim_C8_witness :
    HandleRequest ⟨[("GET:/p:", ⟨CachedData.corrupt, 100⟩)], 300⟩ 50 300
        ⟨"GET", "/p", []⟩ (.response 503 [] (some [7]))
      = forwardRequest ⟨[("GET:/p:", ⟨CachedData.corrupt, 100⟩)], 300⟩ 50
          "GET:/p:" true (.response 503 [] (some [7])) ∧
    ∃ it2, (HandleRequest ⟨[("GET:/p:", ⟨CachedData.corrupt, 100⟩)], 300⟩ 50 300
        ⟨"GET", "/p", []⟩ (.response 503 [] (some [7]))).2.findItem "GET:/p:"
        = some it2 ∧
      (it2 = ⟨CachedData.corrupt, 100⟩ ∨
        ∃ resp : Response, it2.value = CachedData.valid resp) := by
  have h := claim_C8 ⟨[("GET:/p:", ⟨CachedData.corrupt, 100⟩)], 300⟩ 50 300
    ⟨"GET", "/p", []⟩ (.response 503 [] (some [7])) ⟨CachedData.corrupt, 100⟩
    rfl (by decide) rfl (by decide)
  simpa using h

/-! ## Header-copy lemmas (for C5) -/

theorem find?_name_eq_none {β : Type} {items : List (String × β)} {k : String}
    (h : k ∉ items.map Prod.fst) :
    items.find? (fun p => p.1 == k) = none := by
  rw [List.find?_eq_none]
  intro x hx
  simp only [beq_iff_eq]
  intro e
  exact h (e ▸ List.mem_map_of_mem Prod.fst hx)

theorem headerAdd_of_not_mem {acc : Headers} {name : String}
    (h : name ∉ acc.map Prod.fst) (v : String) :
    headerAdd acc name v = acc ++ [(name, [v])] := by
  unfold headerAdd
  rw [find?_name_eq_none h]

theorem map_id_of_eq {γ : Type} {f : γ → γ} {l : List γ}
    (h : ∀ x ∈ l, f x = x) : l.map f = l := by
  induction l with
  | nil => rfl
  | cons a t ih => rw [List.map_cons, h a (by simp), ih (fun x hx => h x (by simp [hx]))]

theorem headerAdd_last {acc : Headers} {name : String} {l : List String}
    (h : name ∉ acc.map Prod.fst) (v : String) :
    headerAdd (acc ++ [(name, l)]) name v = acc ++ [(name, l ++ [v])] := by
  unfold headerAdd
  have hfind : (acc ++ [(name, l)]).find? (fun p => p.1 == name) = some (name, l) := by
    rw [List.find?_append, find?_name_eq_none h]
    simp
  rw [hfind]
  dsimp only
  rw [List.map_append]
  congr 1
  · apply map_id_of_eq
    intro x hx
    have : x.1 ≠ name := by
      intro e
      exact h (e ▸ List.mem_map_of_mem Prod.fst hx)
    simp [this]
  · simp

theorem foldl_headerAdd {name : String} (vs : List String) :
    ∀ (acc : Headers) (l : List String), name ∉ acc.map Prod.fst →
      vs.foldl (fun a v => headerAdd a name v) (acc ++ [(name, l)])
        = acc ++ [(name, l ++ vs)] := by
  induction vs with
  | nil => intro acc l _; simp
  | cons v vs ih =>
    intro acc l h
    rw [List.foldl_cons, headerAdd_last h v, ih acc (l ++ [v]) h]
    simp

theorem addAllHeaders_cons (acc : Headers) (p : String × List String)
    (rest : Headers) :
    addAllHeaders acc (p :: rest)
      = addAllHeaders (p.2.foldl (fun a v => headerAdd a p.1 v) acc) rest := rfl

theorem addAllHeaders_acc (src : Headers) :
    ∀ acc : Headers, (∀ p ∈ src, p.1 ∉ acc.map Prod.fst) →
      (src.map Prod.fst).Nodup → (∀ p ∈ src, p.2 ≠ []) →
      addAllHeaders acc src = acc ++ src := by
  induction src with
  | nil => intro acc _ _ _; simp [addAllHeaders]
  | cons p rest ih =>
    intro acc hdisj hnd hne
    rw [addAllHeaders_cons]
    obtain ⟨v, vs, hv⟩ : ∃ v vs, p.2 = v :: vs := by
      cases hcase : p.2 with
      | nil => exact absurd hcase (hne p (by simp))
      | cons v vs => exact ⟨v, vs, rfl⟩
    have hpacc : p.1 ∉ acc.map Prod.fst := hdisj p (by simp)
    rw [hv, List.foldl_cons, headerAdd_of_not_mem hpacc v,
      foldl_headerAdd vs acc [v] hpacc]
    rw [List.map_cons, List.nodup_cons] at hnd
    have hdisj2 : ∀ q ∈ rest, q.1 ∉ (acc ++ [(p.1, [v] ++ vs)]).map Prod.fst := by
      intro q hq
      rw [List.map_append, List.mem_append]
      rintro (hmem | hmem)
      · exact hdisj q (by simp [hq]) hmem
      · simp only [List.map_cons, List.map_nil, List.mem_singleton] at hmem
        exact hnd.1 (hmem ▸ List.mem_map_of_mem Prod.fst hq)
    rw [ih (acc ++ [(p.1, [v] ++ vs)]) hdisj2 hnd.2
      (fun q hq => hne q (by simp [hq]))]
    have hp : (p.1, [v] ++ vs) = p := by
      rw [List.singleton_append, ← hv]
    rw [hp, List.append_assoc, List.singleton_append]

theorem addAllHeaders_nil_acc {src : Headers} (hnd : (src.map Prod.fst).Nodup)
    (hne : ∀ p ∈ src, p.2 ≠ []) :
    addAllHeaders [] src = src := by
  rw [addAllHeaders_acc src [] (by simp) hnd hne]
  simp

/-! ## Claim C5 -/

/-- C5: the stored copy of an upstream 200 response excludes every header
whose name matches the denylist case-insensitively and keeps all others,
while the relayed miss response carries all upstream headers unchanged
except for the added `X-Cache: MISS`. -/
theorem claim_C5 (c : Cache CachedData) (now : Int) (cacheKey : String)
    (respHeaders : Headers) (status : Nat) (body : List Nat)
    (hnd : (respHeaders.map Prod.fst).Nodup)
    (hne : ∀ p ∈ respHeaders, p.2 ≠ []) :
    (cacheResponse c now cacheKey respHeaders status body).findItem cacheKey
      = some ⟨CachedData.valid
          ⟨respHeaders.filter (fun p => !(isSkippedHeader p.1)), status, body⟩,
        now + c.ttl⟩ ∧
    (∀ p ∈ respHeaders.filter (fun p => !(isSkippedHeader p.1)),
      isSkippedHeader p.1 = false) ∧
    (∀ p ∈ respHeaders, isSkippedHeader p.1 = false →
      p ∈ respHeaders.filter (fun p => !(isSkippedHeader p.1))) ∧
    (writeResponse respHeaders status body).statusCode = status ∧
    (writeResponse respHeaders status body).body = body ∧
    (∀ k : String, k ≠ "X-Cache" →
      (writeResponse respHeaders status body).headers.find? (fun p => p.1 == k)
        = respHeaders.find? (fun p => p.1 == k)) ∧
    (writeResponse respHeaders status body).headers.find?
        (fun p => p.1 == "X-Cache") = some ("X-Cache", ["MISS"]) := by
  refine ⟨?_, ?_, ?_, rfl, rfl, ?_, ?_⟩
  · exact Cache.findItem_set_self c now cacheKey _
  · intro p hp
    have := List.of_mem_filter hp
    simpa using this
  · intro p hp hskip
    rw [List.mem_filter]
    exact ⟨hp, by simp [hskip]⟩
  · intro k hk
    show (headerSet (addAllHeaders [] respHeaders) "X-Cache" "MISS").find?
        (fun p => p.1 == k) = _
    unfold headerSet
    rw [assocSet_find_other _ _ _ hk, addAllHeaders_nil_acc hnd hne]
  · show (headerSet (addAllHeaders [] respHeaders) "X-Cache" "MISS").find?
        (fun p => p.1 == "X-Cache") = _
    unfold headerSet
    rw [assocSet_find_self]

/-- Witness for C5 at a concrete upstream response carrying `Date` and
`Content-Type` headers. -/
theorem claim_C5_witness :
    (cacheResponse ⟨[], 300⟩ 0 "k" [("Date", ["x"]), ("Content-Type", ["y"])]
        200 [1]).findItem "k"
      = some ⟨CachedData.valid ⟨[("Content-Type", ["y"])], 200, [1]⟩, 0 + 300⟩ ∧
    (writeResponse [("Date", ["x"]), ("Content-Type", ["y"])] 200 [1]).headers.find?
        (fun p => p.1 == "Date") = some ("Date", ["x"]) ∧
    (writeResponse [("Date", ["x"]), ("Content-Type", ["y"])] 200 [1]).headers.find?
        (fun p => p.1 == "X-Cache") = some ("X-Cache", ["MISS"]) := by
  have h := claim_C5 ⟨[], 300⟩ 0 "k" [("Date", ["x"]), ("Content-Type", ["y"])]
    200 [1] (by decide) (by decide)
  refine ⟨?_, ?_, h.2.2.2.2.2.2⟩
  · rw [h.1]
    decide
  · have h6 := h.2.2.2.2.2.1 "Date" (by decide)
    rw [h6]
    decide

/-! ## Claim C1: time bucketing arithmetic -/

/-- The exact rational value denoted by a parsed decimal `(n, k)`,
used to state the claimed floor/ceil formulas. -/
def ratOfParsed (p : Int × Nat) : ℚ := (p.1 : ℚ) / 10 ^ p.2

theorem getFirst_setVal (q : Values) (k v : String) :
    (q.setVal k v).getFirst k = v := by
  unfold Values.getFirst Values.lookupList Values.setVal
  rw [assocSet_find_self]

/-- C1 counterexample: with ttl = 300 the claim says `end=900.5` is bucketed
to `ceil(900.5 / 300) * 300 = 1200`, but the code first truncates the parsed
float to int64 and computes `((900 + 299) tdiv 300) * 300 = 900`. -/
theorem claim_C1_counterexample :
    parseGoNumber "900.5" = some (9005, 1) ∧
    generateCacheKey "GET" "/p" [("end", ["900.5"])] 300 = "GET:/p:end=900" ∧
    (⌈ratOfParsed (9005, 1) / 300⌉ * 300 : ℤ) = 1200 ∧
    "GET:/p:end=900" ≠ "GET:/p:end=1200" := by
  refine ⟨by decide, by decide, ?_, by decide⟩
  have hval : ratOfParsed (9005, 1) / 300 = 1801 / 600 := by
    unfold ratOfParsed
    norm_num
  rw [hval]
  have hc : (⌈(1801 : ℚ) / 600⌉ : ℤ) = 4 := by
    rw [Int.ceil_eq_iff]
    norm_num
  rw [hc]
  decide

/-- C1 (amended): when the first value of the parameter parses, the code
replaces it by first truncating the parsed value toward zero to an int64
`t`, then rounding with Go integer division (truncation toward zero):
`(t tdiv ttl) * ttl` for `time`/`start` and `((t + ttl - 1) tdiv ttl) * ttl`
for `end`; on nonnegative integral values this agrees with the claimed
floor/ceil, and the three spec examples hold. -/
theorem claim_C1 (query : Values) (name : String) (ttlSeconds : Int)
    (roundUp : Bool) (p : Int × Nat)
    (hp : parseGoNumber (query.getFirst name) = some p) :
    (roundTimeParameter query name ttlSeconds roundUp).getFirst name
      = toString ((if roundUp
            then Int.tdiv (int64OfParsed p + ttlSeconds - 1) ttlSeconds
            else Int.tdiv (int64OfParsed p) ttlSeconds) * ttlSeconds) ∧
    generateCacheKey "GET" "/p" [("start", ["1000"])] 300 = "GET:/p:start=900" ∧
    generateCacheKey "GET" "/p" [("end", ["1000"])] 300 = "GET:/p:end=1200" ∧
    generateCacheKey "GET" "/p" [("time", ["950"])] 300 = "GET:/p:time=900" := by
  refine ⟨?_, by decide, by decide, by decide⟩
  unfold roundTimeParameter
  have hne : ¬ query.getFirst name = "" := by
    intro e
    have hnone : parseGoNumber "" = none := by decide
    rw [e, hnone] at hp
    cases hp
  rw [if_neg hne, hp]
  dsimp only
  cases roundUp <;> simp [getFirst_setVal]

/-- Witness for C1 at `start=1000`, ttl 300. -/
theorem claim_C1_witness :
    (roundTimeParameter [("start", ["1000"])] "start" 300 false).getFirst "start"
      = toString ((if false
            then Int.tdiv (int64OfParsed (1000, 0) + 300 - 1) 300
            else Int.tdiv (int64OfParsed (1000, 0)) 300) * 300) :=
  (claim_C1 [("start", ["1000"])] "start" 300 false (1000, 0) (by decide)).1

/-! ## Structure of the normalized query string (for C4, C6, C9) -/

/-- The multiset (as a list) of name-value pairs carried by a query. -/
def flattenValues (q : Values) : List (String × String) :=
  q.flatMap (fun p => p.2.map (fun v => (p.1, v)))

/-- The name-value pairs of the normalized query string, in output order:
sorted names, then sorted values per name. -/
def flatPairs (q : Values) : List (String × String) :=
  (sortStrings (q.map Prod.fst)).flatMap
    (fun k => (sortStrings (Values.lookupList q k)).map (fun v => (k, v)))

/-- One serialized `name=value` pair. -/
def pairToken (p : String × String) : String := p.1 ++ "=" ++ p.2

/-- Tokens joined with `&` between consecutive tokens. -/
def joinAmp : List String → String
  | [] => ""
  | t :: rest => t ++ String.join (rest.map (fun s => "&" ++ s))

/-! ### String plumbing -/

theorem string_append_empty (s : String) : s ++ "" = s := by
  apply String.ext
  rw [String.data_append]
  exact List.append_nil _

theorem string_empty_append (s : String) : "" ++ s = s := by
  apply String.ext
  rw [String.data_append]
  rfl

theorem string_append_assoc (a b c : String) : a ++ b ++ c = a ++ (b ++ c) := by
  apply String.ext
  simp [String.data_append]

theorem join_cons (a : String) (l : List String) :
    String.join (a :: l) = a ++ String.join l := by
  show List.foldl (fun r s => r ++ s) ("" ++ a) l = a ++ String.join l
  rw [string_empty_append]
  suffices h : ∀ (l : List String) (s : String),
      List.foldl (fun r t => r ++ t) s l = s ++ String.join l by
    exact h l a
  intro l
  induction l with
  | nil => intro s; exact (string_append_empty s).symm
  | cons b t ih =>
    intro s
    rw [List.foldl_cons, ih (s ++ b)]
    have : String.join (b :: t) = b ++ String.join t := by
      show List.foldl (fun r u => r ++ u) ("" ++ b) t = _
      rw [string_empty_append, ih b]
    rw [this]
    apply String.ext
    simp [String.data_append]

theorem data_join (l : List String) :
    (String.join l).data = (l.map String.data).flatten := by
  induction l with
  | nil => rfl
  | cons a t ih => rw [join_cons, String.data_append, ih, List.map_cons, List.flatten_cons]

/-- Splitting at a separator character is unambiguous when the prefixes do
not contain it. -/
theorem append_sep_cancel {sep : Char} :
    ∀ {l1 l2 r1 r2 : List Char}, sep ∉ l1 → sep ∉ l2 →
      l1 ++ sep :: r1 = l2 ++ sep :: r2 → l1 = l2 ∧ r1 = r2 := by
  intro l1
  induction l1 with
  | nil =>
    intro l2 r1 r2 _ h2 he
    cases l2 with
    | nil =>
      rw [List.nil_append, List.nil_append] at he
      exact ⟨rfl, by injection he⟩
    | cons b bs =>
      rw [List.nil_append, List.cons_append] at he
      injection he with hhead _
      exact absurd (hhead ▸ List.mem_cons_self b bs) h2
  | cons a as ih =>
    intro l2 r1 r2 h1 h2 he
    cases l2 with
    | nil =>
      rw [List.cons_append, List.nil_append] at he
      injection he with hhead _
      exact absurd (hhead ▸ List.mem_cons_self a as) h1
    | cons b bs =>
      rw [List.cons_append, List.cons_append] at he
      injection he with hhead htail
      have h1' : sep ∉ as := fun hm => h1 (List.mem_cons_of_mem a hm)
      have h2' : sep ∉ bs := fun hm => h2 (List.mem_cons_of_mem b hm)
      obtain ⟨he1, he2⟩ := ih h1' h2' htail
      exact ⟨by rw [hhead, he1], he2⟩

theorem token_data (a b : String) :
    (a ++ "=" ++ b).data = a.data ++ '=' :: b.data := by
  rw [String.data_append, String.data_append]
  simp

theorem amp_data (a b : String) :
    (a ++ "&" ++ b).data = a.data ++ '&' :: b.data := by
  rw [String.data_append, String.data_append]
  simp

theorem pairToken_inj {p q : String × String}
    (hp : ('=' : Char) ∉ p.1.data) (hq : ('=' : Char) ∉ q.1.data)
    (he : pairToken p = pairToken q) : p = q := by
  have hd := congrArg String.data he
  unfold pairToken at hd
  rw [token_data, token_data] at hd
  obtain ⟨h1, h2⟩ := append_sep_cancel hp hq hd
  exact Prod.ext (String.ext h1) (String.ext h2)

theorem map_pairToken_inj :
    ∀ {l1 l2 : List (String × String)},
      (∀ x ∈ l1, ('=' : Char) ∉ x.1.data) → (∀ x ∈ l2, ('=' : Char) ∉ x.1.data) →
      l1.map pairToken = l2.map pairToken → l1 = l2 := by
  intro l1
  induction l1 with
  | nil =>
    intro l2 _ _ he
    cases l2 with
    | nil => rfl
    | cons b bs => simp at he
  | cons a as ih =>
    intro l2 h1 h2 he
    cases l2 with
    | nil => simp at he
    | cons b bs =>
      rw [List.map_cons, List.map_cons] at he
      injection he with hhead htail
      have := pairToken_inj (h1 a (by simp)) (h2 b (by simp)) hhead
      rw [this, ih (fun x hx => h1 x (by simp [hx])) (fun x hx => h2 x (by simp [hx])) htail]

theorem joinAmp_cons2 (t c : String) (rs : List String) :
    joinAmp (t :: c :: rs) = t ++ "&" ++ joinAmp (c :: rs) := by
  show t ++ String.join ((c :: rs).map (fun s => "&" ++ s)) = _
  rw [List.map_cons, join_cons]
  apply String.ext
  simp [String.data_append, joinAmp]

theorem joinAmp_single (t : String) : joinAmp [t] = t := by
  show t ++ String.join [] = t
  exact string_append_empty t

/-- Joining nonempty `&`-free tokens with `&` is injective. -/
theorem joinAmp_inj :
    ∀ {ts1 ts2 : List String},
      (∀ t ∈ ts1, t.data ≠ [] ∧ ('&' : Char) ∉ t.data) →
      (∀ t ∈ ts2, t.data ≠ [] ∧ ('&' : Char) ∉ t.data) →
      joinAmp ts1 = joinAmp ts2 → ts1 = ts2 := by
  intro ts1
  induction ts1 with
  | nil =>
    intro ts2 _ h2 he
    cases ts2 with
    | nil => rfl
    | cons t2 r2 =>
      exfalso
      have hd := congrArg String.data he
      cases r2 with
      | nil =>
        rw [joinAmp_single] at hd
        exact (h2 t2 (by simp)).1 hd.symm
      | cons c2 rs2 =>
        rw [joinAmp_cons2, amp_data] at hd
        have : ([] : List Char) ≠ t2.data ++ '&' :: (joinAmp (c2 :: rs2)).data := by
          intro hcontra
          cases t2.data with
          | nil => simp at hcontra
          | cons x xs => simp at hcontra
        exact this hd
  | cons t1 r1 ih =>
    intro ts2 h1 h2 he
    cases ts2 with
    | nil =>
      exfalso
      have hd := congrArg String.data he
      cases r1 with
      | nil =>
        rw [joinAmp_single] at hd
        exact (h1 t1 (by simp)).1 hd
      | cons c1 rs1 =>
        rw [joinAmp_cons2, amp_data] at hd
        have hnil : (joinAmp []).data = [] := rfl
        rw [hnil] at hd
        cases hx : t1.data with
        | nil => rw [hx] at hd; simp at hd
        | cons x xs => rw [hx] at hd; simp at hd
    | cons t2 r2 =>
      cases r1 with
      | nil =>
        cases r2 with
        | nil =>
          rw [joinAmp_single, joinAmp_single] at he
          rw [he]
        | cons c2 rs2 =>
          exfalso
          rw [joinAmp_single, joinAmp_cons2] at he
          have hd := congrArg String.data he
          rw [amp_data] at hd
          have hmem : ('&' : Char) ∈ t1.data := by
            rw [hd]
            exact List.mem_append.mpr (Or.inr (List.mem_cons_self _ _))
          exact (h1 t1 (by simp)).2 hmem
      | cons c1 rs1 =>
        cases r2 with
        | nil =>
          exfalso
          rw [joinAmp_cons2, joinAmp_single] at he
          have hd := congrArg String.data he
          rw [amp_data] at hd
          have hmem : ('&' : Char) ∈ t2.data := by
            rw [← hd]
            exact List.mem_append.mpr (Or.inr (List.mem_cons_self _ _))
          exact (h2 t2 (by simp)).2 hmem
        | cons c2 rs2 =>
          rw [joinAmp_cons2, joinAmp_cons2] at he
          have hd := congrArg String.data he
          rw [amp_data, amp_data] at hd
          obtain ⟨he1, he2⟩ := append_sep_cancel (h1 t1 (by simp)).2 (h2 t2 (by simp)).2 hd
          have ht : t1 = t2 := String.ext he1
          have hr : c1 :: rs1 = c2 :: rs2 :=
            ih (fun x hx => h1 x (by simp [hx])) (fun x hx => h2 x (by simp [hx]))
              (String.ext he2)
          rw [ht, hr]

/-! ### Lookup lemmas -/

theorem lookupList_of_mem {q : Values} (hnd : (q.map Prod.fst).Nodup) :
    ∀ p ∈ q, Values.lookupList q p.1 = p.2 := by
  induction q with
  | nil => intro p hp; cases hp
  | cons hd t ih =>
    rw [List.map_cons, List.nodup_cons] at hnd
    intro p hp
    rcases List.mem_cons.mp hp with rfl | hp'
    · unfold Values.lookupList
      rw [List.find?_cons_of_pos _ (by simp)]
    · have hne : (hd.1 == p.1) = false := by
        simp only [beq_eq_false_iff_ne, ne_eq]
        intro e
        exact hnd.1 (e ▸ List.mem_map_of_mem Prod.fst hp')
      unfold Values.lookupList
      rw [List.find?_cons_of_neg _ (by simp [hne])]
      exact ih hnd.2 p hp'

theorem lookupList_eq_nil_of_not_mem {q : Values} {k : String}
    (h : k ∉ q.map Prod.fst) : Values.lookupList q k = [] := by
  unfold Values.lookupList
  rw [find?_name_eq_none h]

theorem mem_names_of_lookup_ne_nil {q : Values} {k : String}
    (h : Values.lookupList q k ≠ []) : k ∈ q.map Prod.fst := by
  by_contra hmem
  exact h (lookupList_eq_nil_of_not_mem hmem)

theorem lookup_ne_nil_of_mem_names {q : Values} {k : String}
    (hne : ∀ p ∈ q, p.2 ≠ []) (h : k ∈ q.map Prod.fst) :
    Values.lookupList q k ≠ [] := by
  obtain ⟨p, hp, hpk⟩ := List.mem_map.mp h
  have hsome : (q.find? (fun x => x.1 == k)).isSome = true :=
    List.find?_isSome.mpr ⟨p, hp, by simp [hpk]⟩
  cases hf : q.find? (fun x => x.1 == k) with
  | none => rw [hf] at hsome; cases hsome
  | some x =>
    unfold Values.lookupList
    rw [hf]
    exact hne x (List.mem_of_find?_eq_some hf)

/-- Filtering the flattened pairs by a name recovers that name's values. -/
theorem flatten_filter_eq {q : Values} (hnd : (q.map Prod.fst).Nodup) (k : String) :
    (flattenValues q).filter (fun x => x.1 == k)
      = (Values.lookupList q k).map (fun v => (k, v)) := by
  induction q with
  | nil => rfl
  | cons hd t ih =>
    rw [List.map_cons, List.nodup_cons] at hnd
    unfold flattenValues
    rw [List.flatMap_cons, List.filter_append, List.filter_map]
    by_cases hk : hd.1 = k
    · have hblock : List.filter ((fun x => x.1 == k) ∘ fun v => (hd.1, v)) hd.2 = hd.2 :=
        List.filter_eq_self.mpr (fun a _ => by simp [hk])
      rw [hblock]
      have hrest : (flattenValues t).filter (fun x => x.1 == k) = [] := by
        rw [ih hnd.2, lookupList_eq_nil_of_not_mem (hk ▸ hnd.1)]
        rfl
      show _ ++ (flattenValues t).filter (fun x => x.1 == k) = _
      rw [hrest, List.append_nil]
      unfold Values.lookupList
      rw [List.find?_cons_of_pos _ (by simp [hk]), hk]
    · have hblock : List.filter ((fun x => x.1 == k) ∘ fun v => (hd.1, v)) hd.2 = [] := by
        apply List.filter_eq_nil_iff.mpr
        intro a _
        simp [hk]
      rw [hblock, List.map_nil, List.nil_append]
      show (flattenValues t).filter (fun x => x.1 == k) = _
      rw [ih hnd.2]
      unfold Values.lookupList
      rw [List.find?_cons_of_neg _ (by simp [hk])]

/-- Equal pair multisets give, for every name, value lists that are
permutations of each other. -/
theorem perm_lookup_of_flatten_perm {q1 q2 : Values}
    (hnd1 : (q1.map Prod.fst).Nodup) (hnd2 : (q2.map Prod.fst).Nodup)
    (hperm : (flattenValues q1).Perm (flattenValues q2)) (k : String) :
    (Values.lookupList q1 k).Perm (Values.lookupList q2 k) := by
  have hf := hperm.filter (fun x => x.1 == k)
  rw [flatten_filter_eq hnd1 k, flatten_filter_eq hnd2 k] at hf
  have hinj : Function.Injective (fun v : String => (k, v)) := by
    intro a b hab
    injection hab
  rw [← Multiset.coe_eq_coe] at hf ⊢
  rw [← Multiset.map_coe, ← Multiset.map_coe] at hf
  exact Multiset.map_injective hinj hf

theorem names_perm_of_lookup_perm {q1 q2 : Values}
    (hnd1 : (q1.map Prod.fst).Nodup) (hnd2 : (q2.map Prod.fst).Nodup)
    (hne1 : ∀ p ∈ q1, p.2 ≠ []) (hne2 : ∀ p ∈ q2, p.2 ≠ [])
    (hlk : ∀ k, (Values.lookupList q1 k).Perm (Values.lookupList q2 k)) :
    (q1.map Prod.fst).Perm (q2.map Prod.fst) := by
  rw [List.perm_ext_iff_of_nodup hnd1 hnd2]
  intro k
  constructor
  · intro h
    apply mem_names_of_lookup_ne_nil
    intro hnil
    exact lookup_ne_nil_of_mem_names hne1 h ((hnil ▸ hlk k).eq_nil)
  · intro h
    apply mem_names_of_lookup_ne_nil
    intro hnil
    exact lookup_ne_nil_of_mem_names hne2 h ((hnil ▸ (hlk k).symm).eq_nil)

/-- Under the same hypotheses the two normalized pair lists coincide. -/
theorem flatPairs_eq_of_lookup_perm {q1 q2 : Values}
    (hnd1 : (q1.map Prod.fst).Nodup) (hnd2 : (q2.map Prod.fst).Nodup)
    (hne1 : ∀ p ∈ q1, p.2 ≠ []) (hne2 : ∀ p ∈ q2, p.2 ≠ [])
    (hlk : ∀ k, (Values.lookupList q1 k).Perm (Values.lookupList q2 k)) :
    flatPairs q1 = flatPairs q2 := by
  unfold flatPairs
  rw [sortStrings_eq_of_perm (names_perm_of_lookup_perm hnd1 hnd2 hne1 hne2 hlk)]
  have hfun : (fun k => (sortStrings (Values.lookupList q1 k)).map (fun v => (k, v)))
      = (fun k => (sortStrings (Values.lookupList q2 k)).map (fun v => (k, v))) := by
    funext k
    rw [sortStrings_eq_of_perm (hlk k)]
  rw [hfun]

/-! ### The normalized string as a join of sorted pairs -/

theorem enum_map_snd_comp {β : Type} (f : String → β) (l : List String) :
    l.enum.map (fun jv => f jv.2) = l.map f := by
  have h1 : (l.enum.map Prod.snd).map f = l.enum.map (fun jv => f jv.2) := by
    rw [List.map_map]
    rfl
  rw [← h1, List.enum_map_snd]

theorem map_enumFrom_amp (k : String) :
    ∀ (vs : List String) (n : Nat), 0 < n →
      (List.enumFrom n vs).map
          (fun jv => (if 0 < jv.1 then "&" else "") ++ k ++ "=" ++ jv.2)
        = vs.map (fun v => "&" ++ k ++ "=" ++ v) := by
  intro vs
  induction vs with
  | nil => intro n _; rfl
  | cons v t ih =>
    intro n hn
    simp only [List.enumFrom_cons, List.map_cons]
    rw [if_pos hn, ih (n + 1) (by omega)]

theorem flatMap_enumFrom_amp (q : Values) :
    ∀ (ks : List String) (n : Nat), 0 < n →
      (List.enumFrom n ks).flatMap
          (fun ik => (sortStrings (Values.lookupList q ik.2)).enum.map
            (fun jv => (if 0 < ik.1 ∨ 0 < jv.1 then "&" else "") ++ ik.2 ++ "=" ++ jv.2))
        = ks.flatMap (fun k => (sortStrings (Values.lookupList q k)).map
            (fun v => "&" ++ k ++ "=" ++ v)) := by
  intro ks
  induction ks with
  | nil => intro n _; rfl
  | cons k t ih =>
    intro n hn
    simp only [List.enumFrom_cons, List.flatMap_cons]
    rw [ih (n + 1) (by omega)]
    congr 1
    have hcond : ∀ jv : Nat × String,
        (if 0 < n ∨ 0 < jv.1 then ("&" : String) else "") = "&" :=
      fun jv => if_pos (Or.inl hn)
    simp only [hcond]
    exact enum_map_snd_comp (fun v => "&" ++ k ++ "=" ++ v) _

theorem sortStrings_ne_nil {l : List String} (h : l ≠ []) : sortStrings l ≠ [] := by
  intro hc
  have hlen := (sortStrings_perm l).length_eq
  rw [hc] at hlen
  exact h (List.eq_nil_of_length_eq_zero hlen.symm)

/-- When every parameter carries at least one value, the normalized query
string is exactly the sorted pairs serialized as tokens joined by `&`. -/
theorem normalize_eq_joinAmp {q : Values} (hne : ∀ p ∈ q, p.2 ≠ []) :
    normalizeQueryString q = joinAmp ((flatPairs q).map pairToken) := by
  cases hq : q with
  | nil => rfl
  | cons p0 qt =>
    have hqne : ¬ q.length = 0 := by rw [hq]; simp
    have hnamesne : q.map Prod.fst ≠ [] := by rw [hq]; simp
    obtain ⟨k0, krest, hkeys⟩ : ∃ k0 krest,
        sortStrings (q.map Prod.fst) = k0 :: krest := by
      cases hk : sortStrings (q.map Prod.fst) with
      | nil => exact absurd hk (sortStrings_ne_nil hnamesne)
      | cons a b => exact ⟨a, b, rfl⟩
    have hk0mem : k0 ∈ q.map Prod.fst :=
      mem_sortStrings.mp (by rw [hkeys]; exact List.mem_cons_self _ _)
    obtain ⟨v0, vrest, hvals⟩ : ∃ v0 vrest,
        sortStrings (Values.lookupList q k0) = v0 :: vrest := by
      cases hv : sortStrings (Values.lookupList q k0) with
      | nil => exact absurd hv (sortStrings_ne_nil (lookup_ne_nil_of_mem_names hne hk0mem))
      | cons a b => exact ⟨a, b, rfl⟩
    rw [← hq]
    unfold normalizeQueryString flatPairs
    simp only [if_neg hqne]
    rw [hkeys, List.enum_cons, List.flatMap_cons, List.flatMap_cons]
    dsimp only
    rw [hvals, List.enum_cons, List.map_cons, List.map_cons]
    dsimp only
    simp only [lt_self_iff_false, false_or, or_self, if_false]
    rw [map_enumFrom_amp k0 vrest 1 (by omega),
      flatMap_enumFrom_amp q krest 1 (by omega),
      string_empty_append]
    rw [List.cons_append, join_cons]
    have hrhs : joinAmp (((k0, v0) :: (vrest.map (fun v => (k0, v))
        ++ krest.flatMap (fun k => (sortStrings (Values.lookupList q k)).map
          (fun v => (k, v))))).map pairToken)
        = pairToken (k0, v0) ++ String.join (((vrest.map (fun v => (k0, v))
            ++ krest.flatMap (fun k => (sortStrings (Values.lookupList q k)).map
              (fun v => (k, v)))).map pairToken).map (fun s => "&" ++ s)) := by
      rw [List.map_cons]
      rfl
    rw [List.cons_append, hrhs]
    simp only [List.map_append, List.map_map, List.map_flatMap, Function.comp,
      Function.comp_def, pairToken, string_append_assoc]

/-! ### Effect of Set and roundTimeParameter on lookups -/

theorem lookupList_setVal_self (q : Values) (k v : String) :
    Values.lookupList (q.setVal k v) k = [v] := by
  unfold Values.lookupList Values.setVal
  rw [assocSet_find_self]

theorem lookupList_setVal_other (q : Values) (k v : String) {x : String}
    (hx : x ≠ k) : Values.lookupList (q.setVal k v) x = Values.lookupList q x := by
  unfold Values.lookupList Values.setVal
  rw [assocSet_find_other _ _ _ hx]

theorem assocSet_names_of_any {β : Type} {items : List (String × β)} {key : String}
    (val : β) (h : items.any (fun p => p.1 == key) = true) :
    (assocSet items key val).map Prod.fst = items.map Prod.fst := by
  unfold assocSet
  rw [if_pos h, List.map_map]
  apply List.map_congr_left
  intro p _
  by_cases hk : (p.1 == key) = true
  · simp only [Function.comp_apply, if_pos hk]
    exact (beq_iff_eq.mp hk).symm
  · simp only [Function.comp_apply, if_neg hk]

theorem assocSet_names_of_not_any {β : Type} {items : List (String × β)} {key : String}
    (val : β) (h : items.any (fun p => p.1 == key) = false) :
    (assocSet items key val).map Prod.fst = items.map Prod.fst ++ [key] := by
  unfold assocSet
  rw [if_neg (by simp [h]), List.map_append]
  rfl

theorem setVal_nodup {q : Values} {k v : String} (hnd : (q.map Prod.fst).Nodup) :
    ((q.setVal k v).map Prod.fst).Nodup := by
  unfold Values.setVal
  cases hany : q.any (fun p => p.1 == k) with
  | true => rw [assocSet_names_of_any _ hany]; exact hnd
  | false =>
    rw [assocSet_names_of_not_any _ hany]
    have hk : k ∉ q.map Prod.fst := by
      intro hmem
      obtain ⟨p, hp, he⟩ := List.mem_map.mp hmem
      have : q.any (fun p => p.1 == k) = true :=
        List.any_eq_true.mpr ⟨p, hp, by simp [he]⟩
      rw [hany] at this
      cases this
    rw [List.nodup_append]
    exact ⟨hnd, List.nodup_singleton k, List.disjoint_singleton.mpr hk⟩

theorem setVal_nonempty {q : Values} {k v : String} (hne : ∀ p ∈ q, p.2 ≠ []) :
    ∀ p ∈ q.setVal k v, p.2 ≠ [] := by
  unfold Values.setVal assocSet
  by_cases hany : q.any (fun p => p.1 == k) = true
  · rw [if_pos hany]
    intro p hp
    obtain ⟨x, hx, he⟩ := List.mem_map.mp hp
    by_cases hbk : (x.1 == k) = true
    · rw [if_pos hbk] at he
      rw [← he]
      simp
    · rw [if_neg hbk] at he
      rw [← he]
      exact hne x hx
  · rw [if_neg hany]
    intro p hp
    rcases List.mem_append.mp hp with hp' | hp'
    · exact hne p hp'
    · rw [List.mem_singleton.mp hp']
      simp

theorem round_eq_or_setVal (q : Values) (name : String) (t : Int) (b : Bool) :
    roundTimeParameter q name t b = q ∨
      ∃ val, roundTimeParameter q name t b = q.setVal name val := by
  unfold roundTimeParameter
  by_cases hemp : q.getFirst name = ""
  · left; rw [if_pos hemp]
  · rw [if_neg hemp]
    cases hp : parseGoNumber (q.getFirst name) with
    | none => left; rfl
    | some p => right; exact ⟨_, rfl⟩

theorem round_nodup {q : Values} (name : String) (t : Int) (b : Bool)
    (hnd : (q.map Prod.fst).Nodup) :
    ((roundTimeParameter q name t b).map Prod.fst).Nodup := by
  rcases round_eq_or_setVal q name t b with h | ⟨val, h⟩
  · rw [h]; exact hnd
  · rw [h]; exact setVal_nodup hnd

theorem round_nonempty {q : Values} (name : String) (t : Int) (b : Bool)
    (hne : ∀ p ∈ q, p.2 ≠ []) :
    ∀ p ∈ roundTimeParameter q name t b, p.2 ≠ [] := by
  rcases round_eq_or_setVal q name t b with h | ⟨val, h⟩
  · rw [h]; exact hne
  · rw [h]; exact setVal_nonempty hne

theorem round_lookup_other (q : Values) (name : String) (t : Int) (b : Bool)
    {x : String} (hx : x ≠ name) :
    Values.lookupList (roundTimeParameter q name t b) x = Values.lookupList q x := by
  rcases round_eq_or_setVal q name t b with h | ⟨val, h⟩
  · rw [h]
  · rw [h, lookupList_setVal_other _ _ _ hx]

theorem perm_eq_of_length_le_one {α : Type} {l1 l2 : List α} (h : l1.Perm l2)
    (hl : l1.length ≤ 1) : l1 = l2 := by
  cases l1 with
  | nil => exact (h.symm.eq_nil).symm
  | cons a t =>
    cases t with
    | nil =>
      have hlen := h.length_eq
      cases l2 with
      | nil => simp at hlen
      | cons b t2 =>
        cases t2 with
        | nil =>
          have hab : a = b := List.mem_singleton.mp (h.mem_iff.mp (by simp))
          rw [hab]
        | cons c t3 => simp at hlen
    | cons b t2 => simp at hl

/-- If both queries agree (up to order) on a parameter that has at most one
value, one rounding pass keeps all per-name value lists in agreement. -/
theorem round_preserves {q1 q2 : Values} (name : String) (t : Int) (b : Bool)
    (hlk : ∀ x, (Values.lookupList q1 x).Perm (Values.lookupList q2 x))
    (hs : (Values.lookupList q1 name).length ≤ 1) :
    ∀ x, (Values.lookupList (roundTimeParameter q1 name t b) x).Perm
      (Values.lookupList (roundTimeParameter q2 name t b) x) := by
  have heq : Values.lookupList q1 name = Values.lookupList q2 name :=
    perm_eq_of_length_le_one (hlk name) hs
  have hgf : q1.getFirst name = q2.getFirst name := by
    unfold Values.getFirst
    rw [heq]
  simp only [roundTimeParameter]
  rw [← hgf]
  by_cases hempty : q1.getFirst name = ""
  · rw [if_pos hempty, if_pos hempty]
    exact hlk
  · rw [if_neg hempty, if_neg hempty]
    cases hp : parseGoNumber (q1.getFirst name) with
    | none => simp only [hp]; exact hlk
    | some p =>
      simp only [hp]
      intro x
      by_cases hx : x = name
      · subst hx
        rw [lookupList_setVal_self, lookupList_setVal_self]
      · rw [lookupList_setVal_other _ _ _ hx, lookupList_setVal_other _ _ _ hx]
        exact hlk x

/-- The normalized pair list is a permutation of the pairs of the query. -/
theorem flatPairs_perm_flatten {q : Values} (hnd : (q.map Prod.fst).Nodup) :
    (flatPairs q).Perm (flattenValues q) := by
  unfold flatPairs flattenValues
  have h1 : ((sortStrings (q.map Prod.fst)).flatMap
        (fun k => (sortStrings (Values.lookupList q k)).map (fun v => (k, v)))).Perm
      ((q.map Prod.fst).flatMap
        (fun k => (sortStrings (Values.lookupList q k)).map (fun v => (k, v)))) :=
    List.Perm.flatMap_right _ (sortStrings_perm _)
  have h2 : ((q.map Prod.fst).flatMap
        (fun k => (sortStrings (Values.lookupList q k)).map (fun v => (k, v)))).Perm
      ((q.map Prod.fst).flatMap
        (fun k => (Values.lookupList q k).map (fun v => (k, v)))) :=
    List.Perm.flatMap_left _ (fun k _ => (sortStrings_perm _).map _)
  have h3 : (q.map Prod.fst).flatMap
        (fun k => (Values.lookupList q k).map (fun v => (k, v)))
      = q.flatMap (fun p => p.2.map (fun v => (p.1, v))) := by
    rw [List.flatMap_map]
    apply List.flatMap_congr
    intro p hp
    rw [lookupList_of_mem hnd p hp]
  exact (h1.trans h2).trans (Multiset.coe_eq_coe.mp (by rw [h3]))

/-- Queries with order-insensitively equal content normalize identically. -/
theorem normalize_eq_of_lookup_perm {q1 q2 : Values}
    (hnd1 : (q1.map Prod.fst).Nodup) (hnd2 : (q2.map Prod.fst).Nodup)
    (hne1 : ∀ p ∈ q1, p.2 ≠ []) (hne2 : ∀ p ∈ q2, p.2 ≠ [])
    (hlk : ∀ x, (Values.lookupList q1 x).Perm (Values.lookupList q2 x)) :
    normalizeQueryString q1 = normalizeQueryString q2 := by
  rw [normalize_eq_joinAmp hne1, normalize_eq_joinAmp hne2,
    flatPairs_eq_of_lookup_perm hnd1 hnd2 hne1 hne2 hlk]

/-! ## Claim C4: order independence of the key -/

/-- C4 counterexample: two queries with the same multiset of name-value
pairs (a repeated `time` parameter in the two orders) produce different
keys, because bucketing reads only the first value and replaces the list. -/
theorem claim_C4_counterexample :
    (flattenValues [("time", ["100", "400"])]).Perm
      (flattenValues [("time", ["400", "100"])]) ∧
    generateCacheKey "GET" "/p" [("time", ["100", "400"])] 300 = "GET:/p:time=0" ∧
    generateCacheKey "GET" "/p" [("time", ["400", "100"])] 300 = "GET:/p:time=300" ∧
    ("GET:/p:time=0" : String) ≠ "GET:/p:time=300" := by
  refine ⟨?_, by decide, by decide, by decide⟩
  decide

/-- C4 (amended): order insensitivity holds provided no reserved time
parameter (`time`, `start`, `end`) carries more than one value: queries
with the same multiset of name-value pairs, the same method and path, give
the identical key. -/
theorem claim_C4 (m pth : String) (ttl : Int) (q1 q2 : Values)
    (hnd1 : (q1.map Prod.fst).Nodup) (hnd2 : (q2.map Prod.fst).Nodup)
    (hne1 : ∀ p ∈ q1, p.2 ≠ []) (hne2 : ∀ p ∈ q2, p.2 ≠ [])
    (hperm : (flattenValues q1).Perm (flattenValues q2))
    (hs1 : ∀ n ∈ ["time", "start", "end"], (Values.lookupList q1 n).length ≤ 1) :
    generateCacheKey m pth q1 ttl = generateCacheKey m pth q2 ttl := by
  have hlk := perm_lookup_of_flatten_perm hnd1 hnd2 hperm
  have hst : (Values.lookupList q1 "time").length ≤ 1 := hs1 "time" (by simp)
  have hss : (Values.lookupList q1 "start").length ≤ 1 := hs1 "start" (by simp)
  have hse : (Values.lookupList q1 "end").length ≤ 1 := hs1 "end" (by simp)
  suffices h : normalizeQueryString (bucketizeQuery q1 ttl)
      = normalizeQueryString (bucketizeQuery q2 ttl) by
    unfold generateCacheKey
    rw [h]
  unfold bucketizeQuery
  by_cases httl : 0 < ttl
  · rw [if_pos httl, if_pos httl]
    have hlk1 := round_preserves "time" ttl false hlk hst
    have hss1 : (Values.lookupList (roundTimeParameter q1 "time" ttl false)
        "start").length ≤ 1 := by
      rw [round_lookup_other _ _ _ _ (by decide)]
      exact hss
    have hlk2 := round_preserves "start" ttl false hlk1 hss1
    have hse1 : (Values.lookupList (roundTimeParameter
        (roundTimeParameter q1 "time" ttl false) "start" ttl false)
        "end").length ≤ 1 := by
      rw [round_lookup_other _ _ _ _ (by decide),
        round_lookup_other _ _ _ _ (by decide)]
      exact hse
    have hlk3 := round_preserves "end" ttl true hlk2 hse1
    exact normalize_eq_of_lookup_perm
      (round_nodup _ _ _ (round_nodup _ _ _ (round_nodup _ _ _ hnd1)))
      (round_nodup _ _ _ (round_nodup _ _ _ (round_nodup _ _ _ hnd2)))
      (round_nonempty _ _ _ (round_nonempty _ _ _ (round_nonempty _ _ _ hne1)))
      (round_nonempty _ _ _ (round_nonempty _ _ _ (round_nonempty _ _ _ hne2)))
      hlk3
  · rw [if_neg httl, if_neg httl]
    exact normalize_eq_of_lookup_perm hnd1 hnd2 hne1 hne2 hlk

/-- Witness for C4 at `{a:1, b:2}` versus `{b:2, a:1}`. -/
theorem claim_C4_witness :
    generateCacheKey "GET" "/p" [("a", ["1"]), ("b", ["2"])] 300
      = generateCacheKey "GET" "/p" [("b", ["2"]), ("a", ["1"])] 300 :=
  claim_C4 "GET" "/p" 300 [("a", ["1"]), ("b", ["2"])] [("b", ["2"]), ("a", ["1"])]
    (by decide) (by decide) (by decide) (by decide) (by decide) (by decide)

/-! ## Claim C6: multi-valued parameters in the key -/

/-- C6 counterexample: a repeated `time` parameter loses its second value:
both 600 and 900 are multiples of 300, so per-value bucketing would keep
both pairs, but the key contains only `time=600`. -/
theorem claim_C6_counterexample :
    generateCacheKey "GET" "/p" [("time", ["600", "900"])] 300 = "GET:/p:time=600" ∧
    ("GET:/p:time=600" : String) ≠ "GET:/p:time=600&time=900" := by
  refine ⟨by decide, by decide⟩

/-- C6 (amended): the normalized query string emits one `name=value` pair
per value — the pair list is exactly the multiset of pairs of the query,
serialized in sorted order — except that a reserved parameter whose first
value parses as a number has its whole value list replaced by the single
bucketed first value, so its other values are dropped from the key. -/
theorem claim_C6 (q : Values) (hnd : (q.map Prod.fst).Nodup)
    (hne : ∀ p ∈ q, p.2 ≠ []) :
    (flatPairs q).Perm (flattenValues q) ∧
    normalizeQueryString q = joinAmp ((flatPairs q).map pairToken) ∧
    (∀ p ∈ q, ∀ v ∈ p.2, (p.1, v) ∈ flatPairs q) ∧
    (∀ (name : String) (ttlS : Int) (roundUp : Bool) (pr : Int × Nat),
      parseGoNumber (q.getFirst name) = some pr →
      Values.lookupList (roundTimeParameter q name ttlS roundUp) name
        = [toString ((if roundUp
              then Int.tdiv (int64OfParsed pr + ttlS - 1) ttlS
              else Int.tdiv (int64OfParsed pr) ttlS) * ttlS)]) := by
  refine ⟨flatPairs_perm_flatten hnd, normalize_eq_joinAmp hne, ?_, ?_⟩
  · intro p hp v hv
    unfold flatPairs
    apply List.mem_flatMap.mpr
    refine ⟨p.1, mem_sortStrings.mpr (List.mem_map_of_mem Prod.fst hp), ?_⟩
    apply List.mem_map.mpr
    refine ⟨v, mem_sortStrings.mpr ?_, rfl⟩
    rw [lookupList_of_mem hnd p hp]
    exact hv
  · intro name ttlS roundUp pr hp
    unfold roundTimeParameter
    have hnem : ¬ q.getFirst name = "" := by
      intro e
      have hnone : parseGoNumber "" = none := by decide
      rw [e, hnone] at hp
      cases hp
    rw [if_neg hnem, hp]
    dsimp only
    rw [lookupList_setVal_self]
    cases roundUp <;> simp

/-- Witness for C6: a repeated `time` parameter collapses to its bucketed
first value. -/
theorem claim_C6_witness :
    Values.lookupList
        (roundTimeParameter [("time", ["600", "900"])] "time" 300 false) "time"
      = [toString ((if false
            then Int.tdiv (int64OfParsed (600, 0) + 300 - 1) 300
            else Int.tdiv (int64OfParsed (600, 0)) 300) * 300)] :=
  (claim_C6 [("time", ["600", "900"])] (by decide) (by decide)).2.2.2
    "time" 300 false (600, 0) (by decide)

/-! ## Claim C9: injectivity of the cache key -/

theorem mem_flatPairs {q : Values} {x : String × String} (hx : x ∈ flatPairs q) :
    x.1 ∈ q.map Prod.fst ∧ x.2 ∈ Values.lookupList q x.1 := by
  unfold flatPairs at hx
  obtain ⟨k, hk, hv⟩ := List.mem_flatMap.mp hx
  obtain ⟨v, hv2, he⟩ := List.mem_map.mp hv
  rw [← he]
  exact ⟨mem_sortStrings.mp hk, mem_sortStrings.mp hv2⟩

theorem exists_entry_of_mem_lookup {q : Values} {k v : String}
    (hv : v ∈ Values.lookupList q k) : ∃ p ∈ q, p.1 = k ∧ v ∈ p.2 := by
  unfold Values.lookupList at hv
  cases hf : q.find? (fun p => p.1 == k) with
  | none => rw [hf] at hv; cases hv
  | some x =>
    rw [hf] at hv
    have hpx := List.find?_some hf
    exact ⟨x, List.mem_of_find?_eq_some hf, beq_iff_eq.mp hpx, hv⟩

theorem token_conditions {q : Values}
    (hc : ∀ p ∈ q, (('&' : Char) ∉ p.1.data ∧ ('=' : Char) ∉ p.1.data) ∧
      ∀ v ∈ p.2, ('&' : Char) ∉ v.data) :
    ∀ t ∈ (flatPairs q).map pairToken, t.data ≠ [] ∧ ('&' : Char) ∉ t.data := by
  intro t ht
  obtain ⟨x, hx, he⟩ := List.mem_map.mp ht
  obtain ⟨hk, hv⟩ := mem_flatPairs hx
  obtain ⟨p, hp, hpk, hpv⟩ := exists_entry_of_mem_lookup hv
  have hcp := hc p hp
  have hname : ('&' : Char) ∉ x.1.data := by
    rw [← hpk]
    exact hcp.1.1
  have hval : ('&' : Char) ∉ x.2.data := hcp.2 x.2 hpv
  rw [← he]
  unfold pairToken
  rw [token_data]
  constructor
  · intro hcontra
    rcases List.append_eq_nil.mp hcontra with ⟨_, h2⟩
    cases h2
  · intro hmem
    rcases List.mem_append.mp hmem with hm | hm
    · exact hname hm
    · rcases List.mem_cons.mp hm with he2 | hm2
      · exact absurd he2 (by decide)
      · exact hval hm2

theorem flatPairs_names_eq_free {q : Values}
    (hc : ∀ p ∈ q, (('&' : Char) ∉ p.1.data ∧ ('=' : Char) ∉ p.1.data) ∧
      ∀ v ∈ p.2, ('&' : Char) ∉ v.data) :
    ∀ x ∈ flatPairs q, ('=' : Char) ∉ x.1.data := by
  intro x hx
  obtain ⟨hk, _⟩ := mem_flatPairs hx
  obtain ⟨p, hp, he⟩ := List.mem_map.mp hk
  rw [← he]
  exact (hc p hp).1.2

theorem key_data (m pth n : String) :
    (m ++ ":" ++ pth ++ ":" ++ n).data
      = m.data ++ ':' :: (pth.data ++ ':' :: n.data) := by
  simp [String.data_append, show (":" : String).data = [':'] from rfl]

/-- C9 counterexample: the key separators are not escaped, so two requests
differing in path and in query parameters share the identical key. -/
theorem claim_C9_counterexample :
    generateCacheKey "GET" "/p" [("a", ["b:c=d"])] 300
      = generateCacheKey "GET" "/p:a=b" [("c", ["d"])] 300 ∧
    ("/p" : String) ≠ "/p:a=b" ∧
    ¬ (flattenValues [("a", ["b:c=d"])]).Perm (flattenValues [("c", ["d"])]) := by
  refine ⟨by decide, by decide, by decide⟩

/-- C9 (amended): the key is injective on requests whose method and path do
not contain `:` and whose post-bucketing parameter names contain neither
`&` nor `=` and values contain no `&`: two such requests that differ in
method, in path, or in the multiset of post-bucketing name-value pairs get
different keys. -/
theorem claim_C9 (m1 p1 m2 p2 : String) (q1 q2 b1 b2 : Values) (ttl : Int)
    (hb1 : b1 = bucketizeQuery q1 ttl) (hb2 : b2 = bucketizeQuery q2 ttl)
    (hm1 : (':' : Char) ∉ m1.data) (hm2 : (':' : Char) ∉ m2.data)
    (hp1 : (':' : Char) ∉ p1.data) (hp2 : (':' : Char) ∉ p2.data)
    (hnd1 : (b1.map Prod.fst).Nodup) (hnd2 : (b2.map Prod.fst).Nodup)
    (hne1 : ∀ p ∈ b1, p.2 ≠ []) (hne2 : ∀ p ∈ b2, p.2 ≠ [])
    (hc1 : ∀ p ∈ b1, (('&' : Char) ∉ p.1.data ∧ ('=' : Char) ∉ p.1.data) ∧
      ∀ v ∈ p.2, ('&' : Char) ∉ v.data)
    (hc2 : ∀ p ∈ b2, (('&' : Char) ∉ p.1.data ∧ ('=' : Char) ∉ p.1.data) ∧
      ∀ v ∈ p.2, ('&' : Char) ∉ v.data)
    (hdiff : m1 ≠ m2 ∨ p1 ≠ p2 ∨
      ¬ (flattenValues b1).Perm (flattenValues b2)) :
    generateCacheKey m1 p1 q1 ttl ≠ generateCacheKey m2 p2 q2 ttl := by
  intro he
  unfold generateCacheKey at he
  rw [← hb1, ← hb2] at he
  have hd := congrArg String.data he
  rw [key_data, key_data] at hd
  obtain ⟨hm, hrest⟩ := append_sep_cancel hm1 hm2 hd
  obtain ⟨hpq, hn⟩ := append_sep_cancel hp1 hp2 hrest
  rcases hdiff with h | h | h
  · exact h (String.ext hm)
  · exact h (String.ext hpq)
  · apply h
    have hjoin : joinAmp ((flatPairs b1).map pairToken)
        = joinAmp ((flatPairs b2).map pairToken) := by
      rw [← normalize_eq_joinAmp hne1, ← normalize_eq_joinAmp hne2]
      exact String.ext hn
    have htok := joinAmp_inj (token_conditions hc1) (token_conditions hc2) hjoin
    have hpairs := map_pairToken_inj (flatPairs_names_eq_free hc1)
      (flatPairs_names_eq_free hc2) htok
    have h2 := flatPairs_perm_flatten hnd2
    rw [← hpairs] at h2
    exact (flatPairs_perm_flatten hnd1).symm.trans h2

/-- Witness for C9: two GET requests with the same query but different
colon-free paths get different keys. -/
theorem claim_C9_witness :
    generateCacheKey "GET" "/a" [("x", ["1"])] 300
      ≠ generateCacheKey "GET" "/b" [("x", ["1"])] 300 :=
  claim_C9 "GET" "/a" "GET" "/b" [("x", ["1"])] [("x", ["1"])]
    [("x", ["1"])] [("x", ["1"])] 300
    (by decide) (by decide) (by decide) (by decide) (by decide) (by decide)
    (by decide) (by decide) (by decide) (by decide) (by decide) (by decide)
    (Or.inr (Or.inl (by decide)))

end Promcache

